import Mathlib

/-!
Verification of the CSV flattening/reconciliation engine of
`pybossa/exporter/task_csv_export.py` (`TaskCsvExporter`).

The Python values flowing through the exporter (JSON-like task/taskrun
records) are embedded as the inductive type `Val`; Python `dict`s are
association lists with the usual first-match lookup and
replace-or-append assignment, which is exactly the observable behaviour
of a `dict` whose keys are unique.  Python `None` is `Val.vNull`; a
function that can raise is embedded with `Option`/`Except`, where
`none`/`.error` is an escaping exception.

`str.split('__')` and `'__'.join(...)` are embedded by the executable
`splitUnd`/`joinUnd` on character lists (leftmost, non-overlapping
matches of the two-character separator, just as in Python), and
`sorted(...)` on strings by an insertion sort with the
byte/codepoint-lexicographic comparison `charsLe`, which is proved to
agree with Mathlib's linear order on `String`.
-/

namespace TaskCsvExport

/-- A Python value appearing in a task / task-run record: a scalar
(string, integer, boolean, `None`) or a nested dictionary. -/
inductive Val where
  | vStr (s : String)
  | vInt (n : Int)
  | vBool (b : Bool)
  | vNull
  | vObj (fields : List (String × Val))

/-- A record: a Python `dict` as an association list. -/
abbrev Rec := List (String × Val)

/-- `d[k]` for a Python dict: the value of the first (unique) binding of
`k`, or `none` when the key is missing (a `KeyError` in Python). -/
def dictLookup : Rec → String → Option Val
  | [], _ => none
  | (k', v') :: rest, k => if k' = k then some v' else dictLookup rest k

/-- `d[k] = v` for a Python dict: replace the binding in place if the key
exists, otherwise append the new binding at the end (dict insertion
order). -/
def dictSet : Rec → String → Val → Rec
  | [], k, v => [(k, v)]
  | (k', v') :: rest, k, v =>
    if k' = k then (k, v) :: rest else (k', v') :: dictSet rest k v

/-- The keys of a record, in order. -/
def recKeys (d : Rec) : List String := d.map Prod.fst

/-- Does a character list contain the two-character delimiter `__`? -/
def hasUnd : List Char → Bool
  | [] => false
  | [_] => false
  | c1 :: c2 :: rest => if c1 = '_' ∧ c2 = '_' then true else hasUnd (c2 :: rest)

/-- Does a character list end with `'_'`? -/
def lastUnd : List Char → Bool
  | [] => false
  | [c] => c == '_'
  | _ :: c2 :: rest => lastUnd (c2 :: rest)

/-- Python `s.split('__')` on character lists: cut at each leftmost,
non-overlapping occurrence of `__`; always returns at least one part. -/
def splitUnd : List Char → List (List Char)
  | [] => [[]]
  | [c] => [[c]]
  | c1 :: c2 :: cs =>
    if c1 = '_' ∧ c2 = '_' then [] :: splitUnd cs
    else
      match splitUnd (c2 :: cs) with
      | [] => [[c1]]
      | p :: ps => (c1 :: p) :: ps

/-- Python `'__'.join(parts)` on character lists. -/
def joinUnd : List (List Char) → List Char
  | [] => []
  | [p] => p
  | p :: q :: ps => p ++ '_' :: '_' :: joinUnd (q :: ps)

/-- Python `s.split('__')` on strings. -/
def pySplitUnd (s : String) : List String := (splitUnd s.data).map String.mk

/-- Python `'__'.join(ss)` on strings. -/
def pyJoinUnd (ss : List String) : String := String.mk (joinUnd (ss.map String.data))

/-- Byte/codepoint lexicographic `≤` on character lists, as Python
compares strings. -/
def charsLe : List Char → List Char → Bool
  | [], _ => true
  | _ :: _, [] => false
  | a :: as, b :: bs => if a < b then true else if b < a then false else charsLe as bs

/-- Python string comparison `a <= b` (used by `sorted`). -/
def strLeB (a b : String) : Bool := charsLe a.data b.data

/-!  ## The source functions  -/

/-- The `_prefix` computed at the top of `get_keys(row, ty, parent_key)`:
every call in the module passes `parent_key=''`, so the prefix is `''`
when `ty` is empty and `'{}__'.format(ty)` otherwise. -/
def mkPre (ty : String) : String := if ty = "" then "" else ty ++ "__"

/-- The loop body of `TaskCsvExporter.get_keys`, with `pre` the computed
`_prefix`: every key `k` contributes the header `pre ++ k`, and the
recursive call `get_keys(row[k], _prefix + key)` contributes the nested
headers when `row[k]` is a dict; on a non-dict value that call raises
(`.keys()` is missing) and the `except: pass` discards it. -/
def getKeysF : Rec → String → List String
  | [], _ => []
  | (k, Val.vObj sub) :: rest, pre =>
    (pre ++ k) :: (getKeysF sub (mkPre (pre ++ k)) ++ getKeysF rest pre)
  | (k, _) :: rest, pre => (pre ++ k) :: getKeysF rest pre

/-- `TaskCsvExporter.get_keys(row, ty)` (with the default `parent_key=''`,
as every caller in the module uses it). -/
def get_keys (row : Rec) (ty : String) : List String := getKeysF row (mkPre ty)

/-- `TaskCsvExporter.get_value(row, *args)`: with no segments the row
itself is returned; otherwise the first segment is looked up and the
lookup recurses, and any failure — key missing, or the current value is
not a dict — is swallowed by the bare `except` and becomes `None`
(`vNull`). -/
def get_value : Val → List String → Val
  | row, [] => row
  | Val.vObj fields, a :: rest =>
    match dictLookup fields a with
    | some v => get_value v rest
    | none => Val.vNull
  | _, _ :: _ => Val.vNull

/-- The `allowed_attributes` list of `merge_objects`. -/
def allowed_attributes : List String :=
  ["name", "fullname", "created", "email_addr", "admin", "subadmin"]

/-- A domain object as `merge_objects` sees it.  Each field is the result
of the corresponding guarded expression: `dictize` is `t.dictize()`
(`none` when it raises, which `merge_objects` turns into `{}`), `task`
is `t.task.dictize()` and `user` is `t.user.dictize()` (`none` when the
relation is absent/null or the call raises). `className` is
`t.__class__.__name__.lower()`. -/
structure DomainObj where
  className : String
  dictize : Option Rec
  task : Option Rec
  user : Option Rec

/-- `TaskCsvExporter.merge_objects(t)`: start from `t.dictize()` (or `{}`
if that raises), then set `obj_dict['task']`, then set
`obj_dict['user']` filtered to `allowed_attributes`; each of the three
steps is wrapped in `try/except: pass`. -/
def merge_objects (t : DomainObj) : Rec :=
  let obj_dict := t.dictize.getD []
  let obj_dict :=
    match t.task with
    | some task => dictSet obj_dict "task" (Val.vObj task)
    | none => obj_dict
  match t.user with
  | some user =>
    dictSet obj_dict "user"
      (Val.vObj (user.filter (fun kv => allowed_attributes.contains kv.1)))
  | none => obj_dict

/-- `set_nested_value(new_row, keys, value)` of `process_filtered_row`,
instantiated at the two-segment paths it is always called with:
`new_row.setdefault(k0, {})` yields the existing value of `k0` (or
inserts `{}`), and then `row[k1] = value` on that value raises
`TypeError` (`none`) unless it is a dict. -/
def set_nested_value2 (d : Rec) (k0 k1 : String) (v : Val) : Option Rec :=
  match dictLookup d k0 with
  | some (Val.vObj sub) => some (dictSet d k0 (Val.vObj (dictSet sub k1 v)))
  | some _ => none
  | none => some (dictSet d k0 (Val.vObj (dictSet [] k1 v)))

/-- `key_split[0]` of `process_filtered_row` (`split` on a nonempty
separator always yields at least one part, so `headD` never defaults). -/
def splitHead (k : String) : String := (pySplitUnd k).headD ""

/-- `'__'.join(key_split[1:])` of `process_filtered_row`. -/
def splitRest (k : String) : String := pyJoinUnd ((pySplitUnd k).drop 1)

/-- `len(key_split) > 1 and key_split[0] in ('task', 'user')` of
`process_filtered_row`. -/
def recognized (k : String) : Bool :=
  decide (1 < (pySplitUnd k).length) &&
    (splitHead k == "task" || splitHead k == "user")

/-- One iteration of the `for k, v in row.iteritems()` loop of
`process_filtered_row`: nested insertion for a recognized two-part key,
then `new_row[k] = v`. -/
def process_entry (new_row : Rec) (k : String) (v : Val) : Option Rec :=
  if recognized k then
    match set_nested_value2 new_row (splitHead k) (splitRest k) v with
    | some nr => some (dictSet nr k v)
    | none => none
  else some (dictSet new_row k v)

/-- `TaskCsvExporter.process_filtered_row(row)`; `none` is the
(uncaught) `TypeError` from `set_nested_value` when the first path
segment is already bound to a non-dict value. -/
def process_filtered_row (row : Rec) : Option Rec :=
  row.foldlM (fun nr kv => process_entry nr kv.1 kv.2) []

/-- `TaskCsvExporter._format_csv_row(row, headers)`: one cell per header,
obtained by `get_value(row, *header.split('__')[1:])`. -/
def format_csv_row (row : Val) (headers : List String) : List Val :=
  headers.map (fun h => get_value row ((pySplitUnd h).drop 1))

/-- `headers = sorted(list(headers))` where `headers` is the `set`
accumulated in `_get_all_headers`: deduplicate, then sort in plain
lexicographic string order. -/
def sortHeaders (hs : List String) : List String :=
  List.insertionSort (fun a b => strLeB a b = true) hs.dedup

/-- `_get_all_headers(objs, ..., table, from_obj=False)`: union of
`get_keys(obj, table)` over all rows, deduplicated and sorted. -/
def get_all_headers_rows (objs : List Rec) (table : String) : List String :=
  sortHeaders ((objs.map (fun obj => get_keys obj table)).flatten)

/-- The exceptions the driver model distinguishes. -/
inductive PyErr where
  | indexError
  | typeError
  | attributeError
  | dbError

/-- `TaskCsvExporter._get_headers_from_row(obj, obj_name, expanded)`:
`merge_objects(obj)` when expanded, otherwise a bare `obj.dictize()`
whose failure is *not* caught here. -/
def get_headers_from_row (o : DomainObj) (obj_name : String) (expanded : Bool) :
    Except PyErr (List String) :=
  if expanded then Except.ok (get_keys (merge_objects o) obj_name)
  else
    match o.dictize with
    | some d => Except.ok (get_keys d obj_name)
    | none => Except.error PyErr.attributeError

/-- `_get_all_headers(objs, expanded)` with `from_obj=True`:
`objs[0].__class__.__name__.lower()` raises `IndexError` on an empty
collection; otherwise the headers of every object are accumulated and
sorted. -/
def get_all_headers_obj (objs : List DomainObj) (expanded : Bool) :
    Except PyErr (List String) :=
  match objs with
  | [] => Except.error PyErr.indexError
  | o :: _ => do
    let hss ← objs.mapM (fun obj => get_headers_from_row obj o.className expanded)
    Except.ok (sortHeaders hss.flatten)

/-- `TaskCsvExporter._handle_row(writer, t, headers)` writes
`_format_csv_row(merge_objects(t), headers)`. -/
def handle_row (t : DomainObj) (headers : List String) : List Val :=
  format_csv_row (Val.vObj (merge_objects t)) headers

/-- What an export produces: the header row and the data rows that were
written to the output, or `none` when nothing at all was written (the
bare `return` of `_get_csv` for an unknown table makes the generator
yield an empty stream). -/
abbrev CsvOut := List String × List (List Val)

/-- What iterating the generator returned by
`TaskCsvExporter._get_csv(out, writer, table, project_id, expanded)`
does.  `fetch_tasks` / `fetch_task_runs` stand for the record source
(`task_repo.filter_tasks_by` / `filter_task_runs_by`); a `.error` is an
exception escaping from the generator body to whoever iterates it. -/
def get_csv_run (table : String)
    (fetch_tasks fetch_task_runs : Except PyErr (List DomainObj))
    (expanded : Bool) : Except PyErr (Option CsvOut) :=
  if table = "task" || table = "task_run" then do
    let objs ← if table = "task" then fetch_tasks else fetch_task_runs
    let headers ← get_all_headers_obj objs expanded
    Except.ok (some (headers, objs.map (fun o => handle_row o headers)))
  else Except.ok none

/-- What iterating the generator returned by
`TaskCsvExporter._get_csv_with_filters` does; `browse` stands for
`browse_tasks_export(table, project_id, expanded, **filters)`.  The
`TypeError` that `process_filtered_row` can raise escapes here. -/
def get_csv_with_filters_run (table : String)
    (browse : Except PyErr (List Rec)) (_expanded : Bool) :
    Except PyErr CsvOut := do
  let rows ← browse
  let headers := get_all_headers_rows rows table
  let body ← rows.mapM (fun row =>
    match process_filtered_row row with
    | some r => Except.ok (format_csv_row (Val.vObj r) headers)
    | none => Except.error PyErr.typeError)
  Except.ok (headers, body)

/-- What iterating the stream returned by `TaskCsvExporter._respond_csv`
does.  Both `_get_csv` and `_get_csv_with_filters` are *generator
functions*: the calls inside the `try` only create generator objects and
run none of their code, so the `try/except` of `_respond_csv` finishes
before any export work happens and its `except: return empty_csv(out)`
branch is unreachable; every failure instead escapes later, to the
caller iterating the returned generator.  This definition is that
caller-observed result. -/
def respond_csv_run (ty : String)
    (fetch_tasks fetch_task_runs : Except PyErr (List DomainObj))
    (browse : Except PyErr (List Rec))
    (has_filters expanded : Bool) : Except PyErr (Option CsvOut) :=
  if has_filters then (get_csv_with_filters_run ty browse expanded).map some
  else get_csv_run ty fetch_tasks fetch_task_runs expanded

/-!  ## Specification-side definitions used to state the claims  -/

/-- All dot-paths reachable in a record, paired with the value each one
designates — including paths ending at intermediate dict-valued keys.
This is the "original leaf and intermediate values" of the spec. -/
def entriesF : Rec → List (List String × Val)
  | [] => []
  | (k, Val.vObj sub) :: rest =>
    ([k], Val.vObj sub) ::
      ((entriesF sub).map (fun e => (k :: e.1, e.2)) ++ entriesF rest)
  | (k, v) :: rest => ([k], v) :: entriesF rest

/-- The header string the spec assigns to a root prefix and a dot-path:
the root prefix (with its trailing delimiter, when nonempty) followed by
the delimiter-joined path segments. -/
def headerOf (ty : String) (p : List String) : String := mkPre ty ++ pyJoinUnd p

/-- A string neither containing the delimiter `__` nor ending in `_`
(so that concatenating it with `__` splits back off unambiguously). -/
def cleanKey (k : String) : Bool := !hasUnd k.data && !lastUnd k.data

/-- Every key at every depth of the record is `cleanKey`. -/
def cleanKeysF : Rec → Bool
  | [] => true
  | (k, Val.vObj sub) :: rest => cleanKey k && cleanKeysF sub && cleanKeysF rest
  | (k, _) :: rest => cleanKey k && cleanKeysF rest

/-- Keys are pairwise distinct at every depth of the record — what being
built from actual Python `dict`s guarantees. -/
def recKeysNodup : Rec → Bool
  | [] => true
  | (k, Val.vObj sub) :: rest =>
    !(rest.any (fun kv => kv.1 == k)) && recKeysNodup sub && recKeysNodup rest
  | (k, _) :: rest => !(rest.any (fun kv => kv.1 == k)) && recKeysNodup rest

/-!  ## String and comparison lemmas  -/

theorem data_append (a b : String) : (a ++ b).data = a.data ++ b.data := by
  cases a; cases b; rfl

theorem str_ext {a b : String} (h : a.data = b.data) : a = b := by
  cases a; cases b; exact congrArg String.mk h

theorem append_ne_empty {a : String} (b : String) (h : a ≠ "") : a ++ b ≠ "" := by
  intro he
  apply h
  apply str_ext
  have hd : a.data ++ b.data = [] := by
    rw [← data_append, he]
  exact (List.append_eq_nil.mp hd).1

theorem charsLe_iff (x y : List Char) : charsLe x y = true ↔ ¬ List.Lex (· < ·) y x := by
  induction x generalizing y with
  | nil =>
    simp only [charsLe, true_iff]
    intro h
    cases h
  | cons a as ih =>
    cases y with
    | nil =>
      simp [charsLe]
      exact List.Lex.nil
    | cons b bs =>
      by_cases hab : a < b
      · simp [charsLe, hab]
        intro h
        cases h with
        | cons h => exact absurd hab (lt_irrefl _)
        | rel h => exact absurd (hab.trans h) (lt_irrefl _)
      · by_cases hba : b < a
        · simp [charsLe, hab, hba]
          exact List.Lex.rel hba
        · have hq : b = a := le_antisymm (not_lt.mp hab) (not_lt.mp hba)
          subst hq
          simp [charsLe, hab, hba, ih bs]
          constructor
          · intro h hl
            cases hl with
            | cons hl => exact h hl
            | rel hl => exact absurd hl (lt_irrefl _)
          · intro h hl
            exact h (List.Lex.cons hl)

theorem strLeB_iff (a b : String) : strLeB a b = true ↔ a ≤ b := by
  have hlt : b < a ↔ List.Lex (· < ·) b.data a.data := by
    rw [String.lt_iff_toList_lt]
    exact Iff.rfl
  rw [strLeB, charsLe_iff]
  constructor
  · intro h
    by_contra hc
    exact h (hlt.mp (not_le.mp hc))
  · intro h hl
    exact absurd (hlt.mpr hl) (not_lt.mpr h)

instance : IsTotal String (fun a b => strLeB a b = true) :=
  ⟨fun a b => by
    rcases le_total a b with h | h
    · exact Or.inl ((strLeB_iff a b).mpr h)
    · exact Or.inr ((strLeB_iff b a).mpr h)⟩

instance : IsTrans String (fun a b => strLeB a b = true) :=
  ⟨fun a b c hab hbc =>
    (strLeB_iff a c).mpr (le_trans ((strLeB_iff a b).mp hab) ((strLeB_iff b c).mp hbc))⟩

theorem sortHeaders_sorted (hs : List String) : (sortHeaders hs).Sorted (· ≤ ·) :=
  (List.sorted_insertionSort _ hs.dedup).imp (fun h => (strLeB_iff _ _).mp h)

theorem sortHeaders_nodup (hs : List String) : (sortHeaders hs).Nodup :=
  ((List.perm_insertionSort _ hs.dedup).nodup_iff).mpr (List.nodup_dedup hs)

theorem mem_sortHeaders {a : String} {hs : List String} : a ∈ sortHeaders hs ↔ a ∈ hs :=
  ((List.perm_insertionSort _ hs.dedup).mem_iff).trans List.mem_dedup

/-!  ## Dict lemmas  -/

theorem dictLookup_set_self (d : Rec) (k : String) (v : Val) :
    dictLookup (dictSet d k v) k = some v := by
  induction d with
  | nil => simp [dictSet, dictLookup]
  | cons hd tl ih =>
    obtain ⟨k', v'⟩ := hd
    by_cases h : k' = k <;> simp [dictSet, dictLookup, h, ih]

theorem dictLookup_set_ne (d : Rec) (k : String) (v : Val) {k' : String} (h : k' ≠ k) :
    dictLookup (dictSet d k v) k' = dictLookup d k' := by
  have h' : ¬ (k = k') := fun he => h he.symm
  induction d with
  | nil => simp [dictSet, dictLookup, h']
  | cons hd tl ih =>
    obtain ⟨k₀, v₀⟩ := hd
    by_cases h0 : k₀ = k
    · subst h0
      simp [dictSet, dictLookup, h']
    · simp [dictSet, dictLookup, h0, ih]

theorem mem_recKeys_set {d : Rec} {k : String} {v : Val} {k' : String}
    (h : k' ∈ recKeys (dictSet d k v)) : k' = k ∨ k' ∈ recKeys d := by
  induction d with
  | nil => simpa [dictSet, recKeys] using h
  | cons hd tl ih =>
    obtain ⟨k₀, v₀⟩ := hd
    by_cases h0 : k₀ = k
    · subst h0
      have h1 : k' = k₀ ∨ k' ∈ recKeys tl := by simpa [dictSet, recKeys] using h
      rcases h1 with h1 | h1
      · exact Or.inl h1
      · right
        simp only [recKeys, List.map_cons, List.mem_cons]
        right
        simpa [recKeys] using h1
    · have h1 : k' = k₀ ∨ k' ∈ recKeys (dictSet tl k v) := by
        simpa [dictSet, recKeys, h0] using h
      rcases h1 with h1 | h1
      · right
        simp [recKeys, h1]
      · rcases ih h1 with h2 | h2
        · exact Or.inl h2
        · right
          simp only [recKeys, List.map_cons, List.mem_cons]
          right
          simpa [recKeys] using h2

theorem recKeys_append (a b : Rec) : recKeys (a ++ b) = recKeys a ++ recKeys b :=
  List.map_append _ _ _

/-!  ## Split / join lemmas  -/

theorem mk_data (s : String) : String.mk s.data = s := rfl

theorem splitUnd_ne_nil (cs : List Char) : splitUnd cs ≠ [] := by
  induction cs using splitUnd.induct with
  | case1 => simp [splitUnd]
  | case2 c => simp [splitUnd]
  | case3 c1 c2 cs h ih =>
    rw [splitUnd.eq_3, if_pos h]
    simp
  | case4 c1 c2 cs h hsp ih => exact absurd hsp ih
  | case5 c1 c2 cs h p ps hsp ih =>
    rw [splitUnd.eq_3, if_neg h, hsp]
    simp

theorem splitUnd_no_delim {cs : List Char} (h : hasUnd cs = false) : splitUnd cs = [cs] := by
  induction cs using splitUnd.induct with
  | case1 => simp [splitUnd]
  | case2 c => simp [splitUnd]
  | case3 c1 c2 cs hif ih =>
    rw [hasUnd, if_pos hif] at h
    simp at h
  | case4 c1 c2 cs hif hsp ih => exact absurd hsp (splitUnd_ne_nil _)
  | case5 c1 c2 cs hif p ps hsp ih =>
    rw [hasUnd, if_neg hif] at h
    have hx := ih h
    rw [hsp] at hx
    injection hx with h1 h2
    subst h1
    subst h2
    rw [splitUnd.eq_3, if_neg hif, hsp]

theorem splitUnd_append {p : List Char} (rest : List Char)
    (h1 : hasUnd p = false) (h2 : lastUnd p = false) :
    splitUnd (p ++ '_' :: '_' :: rest) = p :: splitUnd rest := by
  induction p using splitUnd.induct with
  | case1 =>
    rw [List.nil_append, splitUnd.eq_3, if_pos ⟨rfl, rfl⟩]
  | case2 c =>
    have hc : ¬ (c = '_' ∧ ('_' : Char) = '_') := by
      rintro ⟨hc, -⟩
      rw [lastUnd, hc] at h2
      simp at h2
    show splitUnd (c :: '_' :: '_' :: rest) = [c] :: splitUnd rest
    rw [splitUnd.eq_3, if_neg hc,
      show splitUnd ('_' :: '_' :: rest) = [] :: splitUnd rest from by
        rw [splitUnd.eq_3, if_pos ⟨rfl, rfl⟩]]
  | case3 c1 c2 cs hif ih =>
    rw [hasUnd, if_pos hif] at h1
    simp at h1
  | case4 c1 c2 cs hif hsp ih => exact absurd hsp (splitUnd_ne_nil _)
  | case5 c1 c2 cs hif p ps hsp ih =>
    rw [hasUnd, if_neg hif] at h1
    rw [lastUnd] at h2
    have ihx : splitUnd (c2 :: (cs ++ '_' :: '_' :: rest)) = (c2 :: cs) :: splitUnd rest := by
      rw [← List.cons_append]
      exact ih h1 h2
    show splitUnd (c1 :: c2 :: (cs ++ '_' :: '_' :: rest)) = (c1 :: c2 :: cs) :: splitUnd rest
    rw [splitUnd.eq_3, if_neg hif, ihx]

theorem splitUnd_join : ∀ ps : List (List Char),
    (∀ q ∈ ps, hasUnd q = false ∧ lastUnd q = false) → ps ≠ [] →
    splitUnd (joinUnd ps) = ps := by
  intro ps
  induction ps with
  | nil => intro _ h; exact absurd rfl h
  | cons p ps ih =>
    intro hcl _
    cases ps with
    | nil =>
      rw [joinUnd.eq_2]
      exact splitUnd_no_delim (hcl p (by simp)).1
    | cons q ps' =>
      rw [joinUnd.eq_3,
        splitUnd_append _ (hcl p (by simp)).1 (hcl p (by simp)).2,
        ih (fun r hr => hcl r (by simp [hr])) (by simp)]

theorem joinUnd_splitUnd (cs : List Char) : joinUnd (splitUnd cs) = cs := by
  induction cs using splitUnd.induct with
  | case1 => simp [splitUnd, joinUnd]
  | case2 c => simp [splitUnd, joinUnd]
  | case3 c1 c2 cs hif ih =>
    obtain ⟨hc1, hc2⟩ := hif
    subst hc1
    subst hc2
    rw [splitUnd.eq_3, if_pos ⟨rfl, rfl⟩]
    rcases hsp : splitUnd cs with _ | ⟨r, rs⟩
    · exact absurd hsp (splitUnd_ne_nil cs)
    · rw [hsp] at ih
      rw [joinUnd.eq_3, List.nil_append, ih]
  | case4 c1 c2 cs hif hsp ih => exact absurd hsp (splitUnd_ne_nil _)
  | case5 c1 c2 cs hif p ps hsp ih =>
    rw [splitUnd.eq_3, if_neg hif, hsp]
    rw [hsp] at ih
    cases ps with
    | nil =>
      rw [joinUnd.eq_2] at ih
      show joinUnd [c1 :: p] = c1 :: c2 :: cs
      rw [joinUnd.eq_2, ih]
    | cons s ss =>
      rw [joinUnd.eq_3] at ih
      show joinUnd ((c1 :: p) :: s :: ss) = c1 :: c2 :: cs
      rw [joinUnd.eq_3, List.cons_append, ih]

theorem data_pyJoinUnd (ss : List String) :
    (pyJoinUnd ss).data = joinUnd (ss.map String.data) := rfl

theorem data_pySplitUnd (s : String) :
    (pySplitUnd s).map String.data = splitUnd s.data := by
  rw [pySplitUnd, List.map_map]
  exact List.map_id'' (fun cs => rfl) _

theorem pyJoinUnd_pySplitUnd (k : String) : pyJoinUnd (pySplitUnd k) = k := by
  apply str_ext
  rw [data_pyJoinUnd, data_pySplitUnd, joinUnd_splitUnd]

theorem pyJoinUnd_cons (s : String) {ps : List String} (h : ps ≠ []) :
    pyJoinUnd (s :: ps) = s ++ "__" ++ pyJoinUnd ps := by
  apply str_ext
  rcases ps with _ | ⟨q, ps'⟩
  · exact absurd rfl h
  · rw [data_append, data_append, data_pyJoinUnd, data_pyJoinUnd,
      List.map_cons, List.map_cons, joinUnd]
    simp

theorem cleanKey_iff {k : String} :
    cleanKey k = true ↔ hasUnd k.data = false ∧ lastUnd k.data = false := by
  simp [cleanKey]

theorem pySplitUnd_append_clean {t : String} (s : String)
    (hct : cleanKey t = true) :
    pySplitUnd (t ++ "__" ++ s) = t :: pySplitUnd s := by
  obtain ⟨h1, h2⟩ := cleanKey_iff.mp hct
  rw [pySplitUnd, data_append, data_append]
  have : ("__" : String).data = ['_', '_'] := rfl
  rw [this, List.append_assoc, List.cons_append, List.cons_append, List.nil_append]
  rw [splitUnd_append _ h1 h2, List.map_cons, mk_data, ← pySplitUnd]

theorem pySplitUnd_no_delim {k : String} (h : hasUnd k.data = false) :
    pySplitUnd k = [k] := by
  rw [pySplitUnd, splitUnd_no_delim h, List.map_cons, List.map_nil, mk_data]

theorem pySplitUnd_header {t : String} {p : List String} (hct : cleanKey t = true)
    (hp : p ≠ []) (hcp : ∀ s ∈ p, cleanKey s = true) (ht : t ≠ "") :
    pySplitUnd (mkPre t ++ pyJoinUnd p) = t :: p := by
  rw [mkPre, if_neg ht]
  rw [pySplitUnd_append_clean _ hct]
  congr 1
  rw [pySplitUnd]
  have hsj : splitUnd (joinUnd (p.map String.data)) = p.map String.data := by
    apply splitUnd_join
    · intro q hq
      obtain ⟨s, hs, rfl⟩ := List.mem_map.mp hq
      exact cleanKey_iff.mp (hcp s hs)
    · simpa using hp
  rw [data_pyJoinUnd, hsj, List.map_map]
  exact List.map_id'' (fun cs => rfl) _

theorem str_append_assoc (a b c : String) : a ++ b ++ c = a ++ (b ++ c) :=
  str_ext (by rw [data_append, data_append, data_append, data_append, List.append_assoc])

theorem pyJoinUnd_single (s : String) : pyJoinUnd [s] = s := rfl

/-!  ## Reachable paths, flattening and projection  -/

theorem mem_recKeys_of_mem_entries {fields : Rec} {k' : String} :
    k' ∈ recKeys fields → ∃ w, (k', w) ∈ fields := by
  intro h
  obtain ⟨⟨k₀, w₀⟩, hm, hb⟩ := List.mem_map.mp h
  exact ⟨w₀, by simpa [← hb] using hm⟩

theorem not_mem_recKeys_of_any_false {rest : Rec} {k : String}
    (hany : (rest.any fun kv => kv.1 == k) = false) : k ∉ recKeys rest := by
  intro hk
  obtain ⟨w, hw⟩ := mem_recKeys_of_mem_entries hk
  have : (rest.any fun kv => kv.1 == k) = true :=
    List.any_eq_true.mpr ⟨(k, w), hw, by simp⟩
  rw [this] at hany
  simp at hany

theorem entriesF_head {fields : Rec} :
    ∀ {p : List String} {v : Val}, (p, v) ∈ entriesF fields →
    ∃ k' p', p = k' :: p' ∧ k' ∈ recKeys fields := by
  induction fields using entriesF.induct with
  | case1 => intro p v h; simp [entriesF] at h
  | case2 k sub rest ihsub ihrest =>
    intro p v h
    rw [entriesF] at h
    rcases List.mem_cons.mp h with h | h
    · refine ⟨k, [], ?_, by simp [recKeys]⟩
      injection h with h1 h2
    · rcases List.mem_append.mp h with h | h
      · obtain ⟨e, hmem, heq⟩ := List.mem_map.mp h
        obtain ⟨p₀, v₀⟩ := e
        injection heq with h1 h2
        exact ⟨k, p₀, h1.symm, by simp [recKeys]⟩
      · obtain ⟨k', p', hp, hk⟩ := ihrest h
        refine ⟨k', p', hp, ?_⟩
        simp only [recKeys, List.map_cons, List.mem_cons]
        exact Or.inr (by simpa [recKeys] using hk)
  | case3 k v₀ rest hne ihrest =>
    intro p v h
    rw [entriesF.eq_3 _ _ _ hne] at h
    rcases List.mem_cons.mp h with h | h
    · refine ⟨k, [], ?_, by simp [recKeys]⟩
      injection h with h1 h2
    · obtain ⟨k', p', hp, hk⟩ := ihrest h
      refine ⟨k', p', hp, ?_⟩
      simp only [recKeys, List.map_cons, List.mem_cons]
      exact Or.inr (by simpa [recKeys] using hk)

theorem mem_getKeysF {fields : Rec} :
    ∀ {pre : String}, pre ≠ "" → ∀ {p : List String} {v : Val}, (p, v) ∈ entriesF fields →
    (pre ++ pyJoinUnd p) ∈ getKeysF fields pre := by
  induction fields using entriesF.induct with
  | case1 => intro pre hpre p v h; simp [entriesF] at h
  | case2 k sub rest ihsub ihrest =>
    intro pre hpre p v h
    rw [entriesF] at h
    rw [getKeysF]
    rcases List.mem_cons.mp h with h | h
    · injection h with h1 h2
      subst h1
      rw [pyJoinUnd_single]
      exact List.mem_cons_self _ _
    · rcases List.mem_append.mp h with h | h
      · obtain ⟨e, hmem, heq⟩ := List.mem_map.mp h
        obtain ⟨p₀, v₀⟩ := e
        injection heq with h1 h2
        subst h1
        obtain ⟨k₀, p₁, hp₀, -⟩ := entriesF_head hmem
        have hpk : pre ++ k ≠ "" := append_ne_empty k hpre
        have hmk : mkPre (pre ++ k) = pre ++ k ++ "__" := by rw [mkPre, if_neg hpk]
        have hmk' : mkPre (pre ++ k) ≠ "" := by
          rw [hmk]
          exact append_ne_empty "__" hpk
        have hjoin : pre ++ pyJoinUnd (k :: p₀) = mkPre (pre ++ k) ++ pyJoinUnd p₀ := by
          rw [pyJoinUnd_cons k (by rw [hp₀]; simp), hmk,
            ← str_append_assoc, ← str_append_assoc]
        rw [hjoin]
        refine List.mem_cons_of_mem _ (List.mem_append.mpr (Or.inl ?_))
        exact ihsub hmk' hmem
      · exact List.mem_cons_of_mem _ (List.mem_append.mpr (Or.inr (ihrest hpre h)))
  | case3 k v₀ rest hne ihrest =>
    intro pre hpre p v h
    rw [entriesF.eq_3 _ _ _ hne] at h
    rw [getKeysF.eq_3 _ _ _ _ hne]
    rcases List.mem_cons.mp h with h | h
    · injection h with h1 h2
      subst h1
      rw [pyJoinUnd_single]
      exact List.mem_cons_self _ _
    · exact List.mem_cons_of_mem _ (ihrest hpre h)

theorem entriesF_clean {fields : Rec} (hc : cleanKeysF fields = true) :
    ∀ {p : List String} {v : Val}, (p, v) ∈ entriesF fields →
    ∀ s ∈ p, cleanKey s = true := by
  induction fields using entriesF.induct with
  | case1 => intro p v h; simp [entriesF] at h
  | case2 k sub rest ihsub ihrest =>
    rw [cleanKeysF] at hc
    simp only [Bool.and_eq_true] at hc
    obtain ⟨⟨hck, hcsub⟩, hcrest⟩ := hc
    intro p v h
    rw [entriesF] at h
    rcases List.mem_cons.mp h with h | h
    · injection h with h1 h2
      subst h1
      simpa using hck
    · rcases List.mem_append.mp h with h | h
      · obtain ⟨e, hmem, heq⟩ := List.mem_map.mp h
        obtain ⟨p₀, v₀⟩ := e
        injection heq with h1 h2
        subst h1
        intro s hs
        rcases List.mem_cons.mp hs with hs | hs
        · subst hs; exact hck
        · exact ihsub hcsub hmem s hs
      · exact ihrest hcrest h
  | case3 k v₀ rest hne ihrest =>
    rw [cleanKeysF.eq_3 _ _ _ hne] at hc
    simp only [Bool.and_eq_true] at hc
    obtain ⟨hck, hcrest⟩ := hc
    intro p v h
    rw [entriesF.eq_3 _ _ _ hne] at h
    rcases List.mem_cons.mp h with h | h
    · injection h with h1 h2
      subst h1
      simpa using hck
    · exact ihrest hcrest h

theorem get_value_cons {fields : Rec} {a : String} {p' : List String} :
    get_value (Val.vObj fields) (a :: p') =
      (match dictLookup fields a with
       | some v => get_value v p'
       | none => Val.vNull) := by
  rw [get_value]

theorem get_value_cons_ne {k : String} {w : Val} {rest : Rec} {k' : String} {p' : List String}
    (h : k ≠ k') :
    get_value (Val.vObj ((k, w) :: rest)) (k' :: p') = get_value (Val.vObj rest) (k' :: p') := by
  rw [get_value_cons, get_value_cons, dictLookup, if_neg h]

theorem get_value_cons_self {k : String} {w : Val} {rest : Rec} {p' : List String} :
    get_value (Val.vObj ((k, w) :: rest)) (k :: p') = get_value w p' := by
  rw [get_value_cons, dictLookup, if_pos rfl]

theorem get_value_entries {fields : Rec} (hnd : recKeysNodup fields = true) :
    ∀ {p : List String} {v : Val}, (p, v) ∈ entriesF fields →
    get_value (Val.vObj fields) p = v := by
  induction fields using entriesF.induct with
  | case1 => intro p v h; simp [entriesF] at h
  | case2 k sub rest ihsub ihrest =>
    rw [recKeysNodup] at hnd
    simp only [Bool.and_eq_true, Bool.not_eq_true'] at hnd
    obtain ⟨⟨hany, hndsub⟩, hndrest⟩ := hnd
    intro p v h
    rw [entriesF] at h
    rcases List.mem_cons.mp h with h | h
    · injection h with h1 h2
      subst h1
      subst h2
      rw [get_value_cons_self, get_value]
    · rcases List.mem_append.mp h with h | h
      · obtain ⟨e, hmem, heq⟩ := List.mem_map.mp h
        obtain ⟨p₀, v₀⟩ := e
        injection heq with h1 h2
        subst h1
        subst h2
        rw [get_value_cons_self]
        exact ihsub hndsub hmem
      · obtain ⟨k', p', hp, hk'⟩ := entriesF_head h
        subst hp
        have hkne : k ≠ k' := by
          intro he
          subst he
          exact not_mem_recKeys_of_any_false hany hk'
        rw [get_value_cons_ne hkne]
        exact ihrest hndrest h
  | case3 k v₀ rest hne ihrest =>
    rw [recKeysNodup.eq_3 _ _ _ hne] at hnd
    simp only [Bool.and_eq_true, Bool.not_eq_true'] at hnd
    obtain ⟨hany, hndrest⟩ := hnd
    intro p v h
    rw [entriesF.eq_3 _ _ _ hne] at h
    rcases List.mem_cons.mp h with h | h
    · injection h with h1 h2
      subst h1
      subst h2
      rw [get_value_cons_self, get_value]
    · obtain ⟨k', p', hp, hk'⟩ := entriesF_head h
      subst hp
      have hkne : k ≠ k' := by
        intro he
        subst he
        exact not_mem_recKeys_of_any_false hany hk'
      rw [get_value_cons_ne hkne]
      exact ihrest hndrest h

/-!  ## Normalization (`process_filtered_row`) lemmas  -/

theorem pySplitUnd_ne_nil (k : String) : pySplitUnd k ≠ [] := by
  rw [pySplitUnd]
  intro h
  exact splitUnd_ne_nil k.data (List.map_eq_nil_iff.mp h)

theorem recognized_spec {k : String} (h : recognized k = true) :
    (splitHead k = "task" ∨ splitHead k = "user") ∧
    k = splitHead k ++ "__" ++ splitRest k := by
  rw [recognized] at h
  simp only [Bool.and_eq_true, Bool.or_eq_true, beq_iff_eq, decide_eq_true_eq] at h
  obtain ⟨hlen, hhead⟩ := h
  refine ⟨hhead, ?_⟩
  rcases hsp : pySplitUnd k with _ | ⟨h₀, rest⟩
  · exact absurd hsp (pySplitUnd_ne_nil k)
  · have hrest : rest ≠ [] := by
      intro he
      rw [hsp, he] at hlen
      simp at hlen
    have hj := pyJoinUnd_pySplitUnd k
    rw [hsp, pyJoinUnd_cons _ hrest] at hj
    rw [splitHead, splitRest, hsp]
    simp only [List.headD_cons, List.drop_succ_cons, List.drop_zero]
    exact hj.symm

theorem recognized_inj {k k' : String} (hk : recognized k = true) (hk' : recognized k' = true)
    (hh : splitHead k = splitHead k') (hr : splitRest k = splitRest k') : k = k' := by
  rw [(recognized_spec hk).2, (recognized_spec hk').2, hh, hr]

/-- The loop invariant of `process_filtered_row`: `processed` is the part
of the input row already consumed, `nr` the `new_row` accumulator. -/
structure NormInv (processed nr : Rec) : Prop where
  flat : ∀ k v, (k, v) ∈ processed → dictLookup nr k = some v
  nested : ∀ k v, (k, v) ∈ processed → recognized k = true →
    ∃ sub, dictLookup nr (splitHead k) = some (Val.vObj sub) ∧
      dictLookup sub (splitRest k) = some v
  keysub : ∀ k', k' ∈ recKeys nr → k' ∈ recKeys processed ∨ k' = "task" ∨ k' = "user"
  heads : ∀ h w, (h = "task" ∨ h = "user") → dictLookup nr h = some w →
    ∃ sub, w = Val.vObj sub
  procOK : ∀ k v, (k, v) ∈ processed → k ≠ "task" ∧ k ≠ "user"

theorem norm_step_core {processed nr : Rec} (inv : NormInv processed nr) {k : String} (v : Val)
    (hfresh : k ∉ recKeys processed) (ht : k ≠ "task") (hu : k ≠ "user")
    (hrec : recognized k = true) (sub₀ : Rec)
    (hsub : dictLookup nr (splitHead k) = some (Val.vObj sub₀) ∨
      (dictLookup nr (splitHead k) = none ∧ sub₀ = [])) :
    NormInv (processed ++ [(k, v)])
      (dictSet (dictSet nr (splitHead k) (Val.vObj (dictSet sub₀ (splitRest k) v))) k v) := by
  have hhead := (recognized_spec hrec).1
  have hkhd : k ≠ splitHead k := by
    rcases hhead with h | h <;> rw [h] <;> assumption
  refine ⟨?_, ?_, ?_, ?_, ?_⟩
  · -- flat
    intro k₀ v₀ hmem
    rcases List.mem_append.mp hmem with hmold | hmnew
    · have hk₀ : k₀ ≠ k := by
        intro he
        exact hfresh (he ▸ List.mem_map_of_mem Prod.fst hmold)
      have hk₀hd : k₀ ≠ splitHead k := by
        obtain ⟨h1, h2⟩ := inv.procOK k₀ v₀ hmold
        rcases hhead with h | h <;> rw [h] <;> assumption
      rw [dictLookup_set_ne _ _ _ hk₀, dictLookup_set_ne _ _ _ hk₀hd]
      exact inv.flat k₀ v₀ hmold
    · have heq : (k₀, v₀) = (k, v) := by simpa using hmnew
      injection heq with h1 h2
      subst h1
      subst h2
      exact dictLookup_set_self _ _ _
  · -- nested
    intro k₀ v₀ hmem hrec₀
    rcases List.mem_append.mp hmem with hmold | hmnew
    · have hd₀head := (recognized_spec hrec₀).1
      have hk₀ : k₀ ≠ k := by
        intro he
        exact hfresh (he ▸ List.mem_map_of_mem Prod.fst hmold)
      have hknehd₀ : splitHead k₀ ≠ k := by
        rcases hd₀head with h | h <;> rw [h]
        · exact Ne.symm ht
        · exact Ne.symm hu
      obtain ⟨sub', hsub', hv₀⟩ := inv.nested k₀ v₀ hmold hrec₀
      by_cases hdd : splitHead k₀ = splitHead k
      · rcases hsub with hsome | ⟨hnone, -⟩
        · rw [hdd] at hsub'
          rw [hsub'] at hsome
          injection hsome with hw
          injection hw with hw'
          subst hw'
          refine ⟨dictSet sub' (splitRest k) v, ?_, ?_⟩
          · rw [hdd, dictLookup_set_ne _ _ _ (Ne.symm hkhd), dictLookup_set_self]
          · have htl : splitRest k₀ ≠ splitRest k := by
              intro he
              exact hk₀ (recognized_inj hrec₀ hrec hdd he)
            rw [dictLookup_set_ne _ _ _ htl]
            exact hv₀
        · rw [hdd] at hsub'
          rw [hsub'] at hnone
          cases hnone
      · refine ⟨sub', ?_, hv₀⟩
        rw [dictLookup_set_ne _ _ _ hknehd₀, dictLookup_set_ne _ _ _ hdd]
        exact hsub'
    · have heq : (k₀, v₀) = (k, v) := by simpa using hmnew
      injection heq with h1 h2
      rw [h1, h2]
      refine ⟨dictSet sub₀ (splitRest k) v, ?_, dictLookup_set_self _ _ _⟩
      rw [dictLookup_set_ne _ _ _ (Ne.symm hkhd)]
      exact dictLookup_set_self _ _ _
  · -- keysub
    intro k' hk'
    rcases mem_recKeys_set hk' with h1 | h1
    · left
      rw [recKeys_append]
      exact List.mem_append.mpr (Or.inr (by simp [recKeys, h1]))
    · rcases mem_recKeys_set h1 with h2 | h2
      · right
        rw [h2]
        exact hhead
      · rcases inv.keysub k' h2 with h3 | h3
        · left
          rw [recKeys_append]
          exact List.mem_append.mpr (Or.inl h3)
        · right
          exact h3
  · -- heads
    intro h' w' hh' hlk'
    have hne : h' ≠ k := by
      rcases hh' with h | h <;> rw [h]
      · exact Ne.symm ht
      · exact Ne.symm hu
    rw [dictLookup_set_ne _ _ _ hne] at hlk'
    by_cases hdd : h' = splitHead k
    · rw [hdd, dictLookup_set_self] at hlk'
      injection hlk' with hw
      exact ⟨_, hw.symm⟩
    · rw [dictLookup_set_ne _ _ _ hdd] at hlk'
      exact inv.heads h' w' hh' hlk'
  · -- procOK
    intro k₀ v₀ hmem
    rcases List.mem_append.mp hmem with hmold | hmnew
    · exact inv.procOK k₀ v₀ hmold
    · have heq : (k₀, v₀) = (k, v) := by simpa using hmnew
      injection heq with h1 h2
      subst h1
      exact ⟨ht, hu⟩

theorem norm_step_plain {processed nr : Rec} (inv : NormInv processed nr) {k : String} (v : Val)
    (hfresh : k ∉ recKeys processed) (ht : k ≠ "task") (hu : k ≠ "user")
    (hrec : recognized k = false) :
    NormInv (processed ++ [(k, v)]) (dictSet nr k v) := by
  refine ⟨?_, ?_, ?_, ?_, ?_⟩
  · intro k₀ v₀ hmem
    rcases List.mem_append.mp hmem with hmold | hmnew
    · have hk₀ : k₀ ≠ k := by
        intro he
        exact hfresh (he ▸ List.mem_map_of_mem Prod.fst hmold)
      rw [dictLookup_set_ne _ _ _ hk₀]
      exact inv.flat k₀ v₀ hmold
    · have heq : (k₀, v₀) = (k, v) := by simpa using hmnew
      injection heq with h1 h2
      subst h1
      subst h2
      exact dictLookup_set_self _ _ _
  · intro k₀ v₀ hmem hrec₀
    rcases List.mem_append.mp hmem with hmold | hmnew
    · have hd₀head := (recognized_spec hrec₀).1
      have hknehd₀ : splitHead k₀ ≠ k := by
        rcases hd₀head with h | h <;> rw [h]
        · exact Ne.symm ht
        · exact Ne.symm hu
      obtain ⟨sub', hsub', hv₀⟩ := inv.nested k₀ v₀ hmold hrec₀
      refine ⟨sub', ?_, hv₀⟩
      rw [dictLookup_set_ne _ _ _ hknehd₀]
      exact hsub'
    · have heq : (k₀, v₀) = (k, v) := by simpa using hmnew
      injection heq with h1 h2
      subst h1
      rw [hrec] at hrec₀
      cases hrec₀
  · intro k' hk'
    rcases mem_recKeys_set hk' with h1 | h1
    · left
      rw [recKeys_append]
      exact List.mem_append.mpr (Or.inr (by simp [recKeys, h1]))
    · rcases inv.keysub k' h1 with h3 | h3
      · left
        rw [recKeys_append]
        exact List.mem_append.mpr (Or.inl h3)
      · right
        exact h3
  · intro h' w' hh' hlk'
    have hne : h' ≠ k := by
      rcases hh' with h | h <;> rw [h]
      · exact Ne.symm ht
      · exact Ne.symm hu
    rw [dictLookup_set_ne _ _ _ hne] at hlk'
    exact inv.heads h' w' hh' hlk'
  · intro k₀ v₀ hmem
    rcases List.mem_append.mp hmem with hmold | hmnew
    · exact inv.procOK k₀ v₀ hmold
    · have heq : (k₀, v₀) = (k, v) := by simpa using hmnew
      injection heq with h1 h2
      subst h1
      exact ⟨ht, hu⟩

theorem norm_step {processed nr : Rec} (inv : NormInv processed nr) {k : String} (v : Val)
    (hfresh : k ∉ recKeys processed) (ht : k ≠ "task") (hu : k ≠ "user") :
    ∃ nr', process_entry nr k v = some nr' ∧ NormInv (processed ++ [(k, v)]) nr' := by
  by_cases hrec : recognized k = true
  · rcases hlk : dictLookup nr (splitHead k) with _ | w
    · refine ⟨_, ?_, norm_step_core inv v hfresh ht hu hrec [] (Or.inr ⟨hlk, rfl⟩)⟩
      simp only [process_entry, if_pos hrec, set_nested_value2, hlk]
    · obtain ⟨sub, rfl⟩ := inv.heads (splitHead k) w (recognized_spec hrec).1 hlk
      refine ⟨_, ?_, norm_step_core inv v hfresh ht hu hrec sub (Or.inl hlk)⟩
      simp only [process_entry, if_pos hrec, set_nested_value2, hlk]
  · rw [Bool.not_eq_true] at hrec
    refine ⟨_, ?_, norm_step_plain inv v hfresh ht hu hrec⟩
    simp only [process_entry, hrec, Bool.false_eq_true, if_false]

theorem norm_fold : ∀ (rest : Rec) {processed nr : Rec}, NormInv processed nr →
    (recKeys (processed ++ rest)).Nodup →
    (∀ kv ∈ rest, kv.1 ≠ "task" ∧ kv.1 ≠ "user") →
    ∃ out, List.foldlM (fun nr kv => process_entry nr kv.1 kv.2) nr rest = some out ∧
      NormInv (processed ++ rest) out := by
  intro rest
  induction rest with
  | nil =>
    intro processed nr inv hnd hok
    exact ⟨nr, rfl, by simpa using inv⟩
  | cons kv rest ih =>
    intro processed nr inv hnd hok
    obtain ⟨k, v⟩ := kv
    have hfresh : k ∉ recKeys processed := by
      rw [recKeys_append] at hnd
      have hdisj := (List.nodup_append.mp hnd).2.2
      intro hk
      exact hdisj hk (by simp [recKeys])
    obtain ⟨hkt, hku⟩ := hok (k, v) (List.mem_cons_self _ _)
    obtain ⟨nr', hpe, inv'⟩ := norm_step inv v hfresh hkt hku
    have hnd' : (recKeys ((processed ++ [(k, v)]) ++ rest)).Nodup := by
      rw [List.append_assoc]
      simpa using hnd
    obtain ⟨out, hfold, invout⟩ := ih inv' hnd'
      (fun kv hkv => hok kv (List.mem_cons_of_mem _ hkv))
    refine ⟨out, ?_, ?_⟩
    · rw [List.foldlM_cons, hpe]
      exact hfold
    · have hre : (processed ++ [(k, v)]) ++ rest = processed ++ (k, v) :: rest := by simp
      rwa [hre] at invout

theorem process_entry_preserves {nr nr₁ : Rec} {k₀ : String} {v₀ : Val}
    (hpe : process_entry nr k₀ v₀ = some nr₁) {k : String}
    (hk : k ≠ k₀) (ht : k ≠ "task") (hu : k ≠ "user") :
    dictLookup nr₁ k = dictLookup nr k := by
  have hkhd : ∀ hd, (hd = "task" ∨ hd = "user") → k ≠ hd := by
    intro hd hh
    rcases hh with h | h <;> rw [h] <;> assumption
  rw [process_entry] at hpe
  by_cases hrec : recognized k₀ = true
  · rw [if_pos hrec] at hpe
    rcases hsv : set_nested_value2 nr (splitHead k₀) (splitRest k₀) v₀ with _ | nr₂ <;>
      rw [hsv] at hpe
    · cases hpe
    · injection hpe with h1
      subst h1
      rw [dictLookup_set_ne _ _ _ hk]
      rw [set_nested_value2] at hsv
      rcases hlk : dictLookup nr (splitHead k₀) with _ | w <;> rw [hlk] at hsv
      · injection hsv with h2
        subst h2
        rw [dictLookup_set_ne _ _ _ (hkhd _ (recognized_spec hrec).1)]
      · rcases w with s | n | b | _ | sub
        · cases hsv
        · cases hsv
        · cases hsv
        · cases hsv
        · injection hsv with h2
          subst h2
          rw [dictLookup_set_ne _ _ _ (hkhd _ (recognized_spec hrec).1)]
  · rw [if_neg hrec] at hpe
    injection hpe with h1
    subst h1
    exact dictLookup_set_ne _ _ _ hk

theorem process_entry_sets {nr nr₁ : Rec} {k : String} {v : Val}
    (hpe : process_entry nr k v = some nr₁) :
    dictLookup nr₁ k = some v := by
  rw [process_entry] at hpe
  by_cases hrec : recognized k = true
  · rw [if_pos hrec] at hpe
    rcases hsv : set_nested_value2 nr (splitHead k) (splitRest k) v with _ | nr₂ <;>
      rw [hsv] at hpe
    · cases hpe
    · injection hpe with h1
      subst h1
      exact dictLookup_set_self _ _ _
  · rw [if_neg hrec] at hpe
    injection hpe with h1
    subst h1
    exact dictLookup_set_self _ _ _

theorem fold_preserves : ∀ (rest : Rec) {nr out : Rec} {k : String} {v : Val},
    List.foldlM (fun nr kv => process_entry nr kv.1 kv.2) nr rest = some out →
    dictLookup nr k = some v → k ≠ "task" → k ≠ "user" →
    (∀ kv ∈ rest, kv.1 ≠ k) →
    dictLookup out k = some v := by
  intro rest
  induction rest with
  | nil =>
    intro nr out k v hf hl _ _ _
    injection hf with h1
    rw [← h1]
    exact hl
  | cons kv rest ih =>
    intro nr out k v hf hl ht hu hne
    obtain ⟨k₀, v₀⟩ := kv
    rw [List.foldlM_cons] at hf
    rcases hpe : process_entry nr k₀ v₀ with _ | nr₁ <;> rw [hpe] at hf
    · cases hf
    · have hk : k ≠ k₀ := fun he => hne (k₀, v₀) (List.mem_cons_self _ _) (by rw [he])
      have hl' : dictLookup nr₁ k = some v := by
        rw [process_entry_preserves hpe hk ht hu]
        exact hl
      exact ih hf hl' ht hu (fun kv hkv => hne kv (List.mem_cons_of_mem _ hkv))

theorem fold_inserts : ∀ (rest : Rec) {nr out : Rec} {k : String} {v : Val},
    List.foldlM (fun nr kv => process_entry nr kv.1 kv.2) nr rest = some out →
    (recKeys rest).Nodup → (k, v) ∈ rest → k ≠ "task" → k ≠ "user" →
    dictLookup out k = some v := by
  intro rest
  induction rest with
  | nil =>
    intro nr out k v _ _ hm _ _
    simp at hm
  | cons kv rest ih =>
    intro nr out k v hf hnd hm ht hu
    obtain ⟨k₀, v₀⟩ := kv
    rw [List.foldlM_cons] at hf
    rcases hpe : process_entry nr k₀ v₀ with _ | nr₁ <;> rw [hpe] at hf
    · cases hf
    · rcases List.mem_cons.mp hm with hm | hm
      · injection hm with h1 h2
        subst h1
        subst h2
        have hnotin : k ∉ recKeys rest := by
          have := (by simpa [recKeys] using hnd : k ∉ List.map Prod.fst rest ∧ (recKeys rest).Nodup)
          exact this.1
        refine fold_preserves rest hf (process_entry_sets hpe) ht hu ?_
        intro kv hkv he
        exact hnotin (by rw [← he]; exact List.mem_map_of_mem Prod.fst hkv)
      · have hnd' : (recKeys rest).Nodup := by
          have := (by simpa [recKeys] using hnd : k₀ ∉ List.map Prod.fst rest ∧ (recKeys rest).Nodup)
          exact this.2
        exact ih hf hnd' hm ht hu

/-!  ## Header-set builder plumbing  -/

theorem mem_get_all_headers_rows {R : List Rec} {r : Rec} {t : String} (hr : r ∈ R)
    {h : String} (hm : h ∈ get_keys r t) : h ∈ get_all_headers_rows R t := by
  rw [get_all_headers_rows, mem_sortHeaders]
  exact List.mem_flatten.mpr ⟨get_keys r t, List.mem_map_of_mem _ hr, hm⟩

theorem get_all_headers_obj_ok {objs : List DomainObj} {e : Bool} {hs : List String}
    (h : get_all_headers_obj objs e = Except.ok hs) : ∃ l, hs = sortHeaders l := by
  rcases objs with _ | ⟨o, rest⟩
  · simp [get_all_headers_obj] at h
  · rw [get_all_headers_obj] at h
    rcases hm : (o :: rest).mapM (fun obj => get_headers_from_row obj o.className e) with
      e' | hss <;> rw [hm] at h
    · simp [Bind.bind, Except.bind] at h
    · simp only [Bind.bind, Except.bind, Except.ok.injEq] at h
      exact ⟨hss.flatten, h.symm⟩

theorem get_value_nil (row : Val) : get_value row [] = row := by
  cases row <;> rfl

/-!  ## The claims  -/

/-- Claim C1 (corrected), the claim as amended: flattening a record with
`get_keys` under a root prefix and projecting the record against each
produced header — splitting the header on `__`, dropping the root-prefix
segment and looking the remaining path up with `get_value` — reproduces
every original leaf and intermediate value, **provided** the root prefix
is nonempty, neither it nor any key of the record contains the delimiter
`__` or ends in `_`, and keys are unique at every depth (as they are in
a Python dict).  Without the delimiter-freeness proviso the claim is
false, see the counterexample. -/
theorem roundtrip_amended : ∀ (t : String) (r : Rec),
    t ≠ "" → cleanKey t = true → cleanKeysF r = true → recKeysNodup r = true →
    ∀ (p : List String) (v : Val), (p, v) ∈ entriesF r →
    get_value (Val.vObj r) ((pySplitUnd (headerOf t p)).drop 1) = v := by
  intro t r ht hct hcr hnd p v hm
  obtain ⟨k', p', hpe, -⟩ := entriesF_head hm
  have hp : p ≠ [] := by rw [hpe]; simp
  have hcp : ∀ s ∈ p, cleanKey s = true := entriesF_clean hcr hm
  rw [headerOf, pySplitUnd_header hct hp hcp ht]
  simp only [List.drop_succ_cons, List.drop_zero]
  exact get_value_entries hnd hm

/-- Witness for C1, the spec's own round-trip example
(`{"a": {"x": "N"}, "b": 1}` with prefix `t`): projecting the header of
the path `a.x` yields `"N"` again. -/
theorem roundtrip_witness :
    get_value (Val.vObj [("a", Val.vObj [("x", Val.vStr "N")]), ("b", Val.vInt 1)])
      ((pySplitUnd (headerOf "t" ["a", "x"])).drop 1) = Val.vStr "N" :=
  roundtrip_amended "t" [("a", Val.vObj [("x", Val.vStr "N")]), ("b", Val.vInt 1)]
    (by decide) (by decide)
    (by simp [cleanKeysF, cleanKey, hasUnd, lastUnd])
    (by simp [recKeysNodup])
    ["a", "x"] (Val.vStr "N") (by simp [entriesF])

/-- Counterexample to C1 as stated: in the record `{"a__b": 1}` the value
`1` at the reachable path `["a__b"]` is *not* reproduced — its header
`t__a__b` splits into the segments `a, b`, whose lookup yields null. -/
theorem roundtrip_cex :
    (["a__b"], Val.vInt 1) ∈ entriesF [("a__b", Val.vInt 1)] ∧
    get_value (Val.vObj [("a__b", Val.vInt 1)]) ((pySplitUnd (headerOf "t" ["a__b"])).drop 1) =
      Val.vNull ∧
    Val.vNull ≠ Val.vInt 1 := by
  refine ⟨by simp [entriesF], rfl, ?_⟩
  intro h
  cases h

/-- Claim C2 (corrected), the claim as amended: for every record set, every
record in it and every reachable dot-path (intermediate keys included),
the header `root_prefix ++ "__" ++ delimiter-joined(path)` is in the
header set built by `_get_all_headers` over the rows — **provided** the
root prefix is nonempty, which it is on every code path (a table name or
a class name).  With an empty prefix the claim fails, see the
counterexample. -/
theorem header_completeness_amended : ∀ (t : String), t ≠ "" →
    ∀ (R : List Rec) (r : Rec), r ∈ R → ∀ (p : List String) (v : Val), (p, v) ∈ entriesF r →
    headerOf t p ∈ get_all_headers_rows R t := by
  intro t ht R r hr p v hm
  have hpre : mkPre t ≠ "" := by
    rw [mkPre, if_neg ht]
    exact append_ne_empty _ ht
  rw [headerOf]
  exact mem_get_all_headers_rows hr (mem_getKeysF hpre hm)

/-- Witness for C2: the header of the nested path `a.x` under prefix
`task` is in the header set of the singleton record set. -/
theorem header_completeness_witness :
    headerOf "task" ["a", "x"] ∈
      get_all_headers_rows [[("a", Val.vObj [("x", Val.vStr "N")])]] "task" :=
  header_completeness_amended "task" (by decide)
    [[("a", Val.vObj [("x", Val.vStr "N")])]] [("a", Val.vObj [("x", Val.vStr "N")])]
    (by simp) ["a", "x"] (Val.vStr "N") (by simp [entriesF])

/-- Counterexample to C2 as stated: with the empty root prefix and the
record `{"": {"x": 1}}`, the path `["", "x"]` is reachable but its
claimed header `"" ++ join(["", "x"]) = "__x"` is not in the built
header set (which is `["", "x"]`): `get_keys` re-tests `ty = ''` at each
level, so the child of the empty key gets prefix `""`, not `"__"`. -/
theorem header_completeness_cex :
    (["", "x"], Val.vInt 1) ∈ entriesF [("", Val.vObj [("x", Val.vInt 1)])] ∧
    headerOf "" ["", "x"] ∉ get_all_headers_rows [[("", Val.vObj [("x", Val.vInt 1)])]] "" := by
  constructor
  · simp [entriesF]
  · intro hmem
    rw [show get_all_headers_rows [[("", Val.vObj [("x", Val.vInt 1)])]] "" = ["", "x"] from by
        simp [get_all_headers_rows, get_keys, getKeysF, mkPre, sortHeaders, strLeB, charsLe]]
      at hmem
    rw [show headerOf "" ["", "x"] = "__x" from rfl] at hmem
    simp at hmem

/-- Claim C3 (code_bug): the blanket `try/except` of `_respond_csv` was
meant to convert any export failure into an empty stream, but
`_get_csv` / `_get_csv_with_filters` are generator functions, so the
`try` block only creates the generator and no failure can ever reach the
`except`; iterating the returned stream raises instead.  Three evaluations
of the driver model at failing inputs, each propagating the error to the
caller: an empty object collection (`objs[0]` → IndexError), a failing
record query, and a failing filtered browse. -/
theorem respond_csv_error_propagates :
    respond_csv_run "task" (Except.ok []) (Except.ok []) (Except.ok []) false false =
      Except.error PyErr.indexError ∧
    respond_csv_run "task" (Except.error PyErr.dbError) (Except.ok []) (Except.ok []) false false =
      Except.error PyErr.dbError ∧
    respond_csv_run "task" (Except.ok []) (Except.ok []) (Except.error PyErr.dbError) true false =
      Except.error PyErr.dbError :=
  ⟨rfl, rfl, rfl⟩

/-- Claim C4 (corrected), the claim as amended: on an empty record
iterable the *row-derived* export path produces an empty header sequence,
a header line with zero columns and zero data rows, without error; the
*object-derived* path instead raises `IndexError` (from `objs[0]`), see
the counterexample. -/
theorem empty_input_amended :
    (∀ t : String, get_all_headers_rows [] t = []) ∧
    (∀ (t : String) (e : Bool),
      get_csv_with_filters_run t (Except.ok []) e = Except.ok ([], [])) :=
  ⟨fun _ => rfl, fun _ _ => rfl⟩

/-- Counterexample to C4 as stated: the object-derived path on an empty
collection evaluates `objs[0].__class__` and raises `IndexError` rather
than producing an empty header line. -/
theorem empty_input_obj_path_cex :
    get_all_headers_obj [] false = Except.error PyErr.indexError ∧
    get_csv_run "task" (Except.ok []) (Except.ok []) false = Except.error PyErr.indexError :=
  ⟨rfl, rfl⟩

/-- Claim C5 (confirmed): `get_value` never throws — with an empty segment
list it returns the record itself; on a dict it either recurses into the
value of the first segment or returns null when the key is absent; and on
every non-dict value (string, int, bool, null) it returns null. -/
theorem get_value_never_throws :
    (∀ row : Val, get_value row [] = row) ∧
    (∀ (fields : Rec) (a : String) (rest : List String),
      dictLookup fields a = none → get_value (Val.vObj fields) (a :: rest) = Val.vNull) ∧
    (∀ (fields : Rec) (a : String) (rest : List String) (v : Val),
      dictLookup fields a = some v →
      get_value (Val.vObj fields) (a :: rest) = get_value v rest) ∧
    (∀ (a : String) (rest : List String) (s : String),
      get_value (Val.vStr s) (a :: rest) = Val.vNull) ∧
    (∀ (a : String) (rest : List String) (n : Int),
      get_value (Val.vInt n) (a :: rest) = Val.vNull) ∧
    (∀ (a : String) (rest : List String) (b : Bool),
      get_value (Val.vBool b) (a :: rest) = Val.vNull) ∧
    (∀ (a : String) (rest : List String), get_value Val.vNull (a :: rest) = Val.vNull) := by
  refine ⟨fun row => by cases row <;> rfl, ?_, ?_, fun _ _ _ => rfl, fun _ _ _ => rfl,
    fun _ _ _ => rfl, fun _ _ => rfl⟩
  · intro fields a rest h
    rw [get_value_cons, h]
  · intro fields a rest v h
    rw [get_value_cons, h]

/-- Witness for C5: looking up the missing key `b` in `{"a": 1}` yields
null rather than an error. -/
theorem get_value_never_throws_witness :
    get_value (Val.vObj [("a", Val.vInt 1)]) ["b"] = Val.vNull :=
  get_value_never_throws.2.1 [("a", Val.vInt 1)] "b" [] rfl

/-- Claim C6 (confirmed): the header set built by `_get_all_headers` —
on both the row-derived and the object-derived path — is a
duplicate-free sequence sorted in plain codepoint-lexicographic string
order, and the header set of `{"b": 1, "a": 1}` with empty prefix is
exactly `["a", "b"]`. -/
theorem headers_sorted_nodup :
    (∀ (objs : List Rec) (t : String),
      (get_all_headers_rows objs t).Sorted (· ≤ ·) ∧ (get_all_headers_rows objs t).Nodup) ∧
    (∀ (objs : List DomainObj) (e : Bool) (hs : List String),
      get_all_headers_obj objs e = Except.ok hs → hs.Sorted (· ≤ ·) ∧ hs.Nodup) ∧
    get_all_headers_rows [[("b", Val.vInt 1), ("a", Val.vInt 1)]] "" = ["a", "b"] := by
  refine ⟨fun objs t => ⟨sortHeaders_sorted _, sortHeaders_nodup _⟩, ?_, ?_⟩
  · intro objs e hs h
    obtain ⟨l, rfl⟩ := get_all_headers_obj_ok h
    exact ⟨sortHeaders_sorted _, sortHeaders_nodup _⟩
  · simp [get_all_headers_rows, get_keys, getKeysF, mkPre, sortHeaders, strLeB, charsLe]

/-- Witness for C6 on the object-derived path: a concrete one-object
collection produces a sorted, duplicate-free header list. -/
theorem headers_sorted_nodup_witness :
    ∃ hs, get_all_headers_obj [⟨"task", some [("a", Val.vInt 1)], none, none⟩] false =
        Except.ok hs ∧ hs.Sorted (· ≤ ·) ∧ hs.Nodup := by
  have hok : get_all_headers_obj [⟨"task", some [("a", Val.vInt 1)], none, none⟩] false =
      Except.ok ["task__a"] := by
    simp [get_all_headers_obj, get_headers_from_row, get_keys, getKeysF, mkPre,
      sortHeaders, List.mapM, List.mapM.loop, Bind.bind, Except.bind, pure, Except.pure]
  exact ⟨["task__a"], hok, headers_sorted_nodup.2.1 _ false _ hok⟩

/-- Claim C7 (confirmed): a projected row always has exactly one cell per
header, whatever the record's own shape. -/
theorem format_csv_row_length : ∀ (row : Val) (headers : List String),
    (format_csv_row row headers).length = headers.length := by
  intro row headers
  rw [format_csv_row]
  exact List.length_map _ _

/-- Claim C8 (corrected), the claim as amended: normalizing a flat row
whose keys are distinct and in which no key is bare `task` or `user`
succeeds, and in the result every original key is retained flat with its
original value; every key that splits into ≥ 2 segments with recognized
first segment is additionally inserted at the nested two-level path; and
no keys other than the original ones and the nested heads `task`/`user`
appear.  Without the no-bare-`task`/`user` proviso normalization can
raise `TypeError`, see the counterexample. -/
theorem process_filtered_row_amended : ∀ row : Rec, (recKeys row).Nodup →
    (∀ kv ∈ row, kv.1 ≠ "task" ∧ kv.1 ≠ "user") →
    ∃ out, process_filtered_row row = some out ∧
      (∀ k v, (k, v) ∈ row → dictLookup out k = some v) ∧
      (∀ k v, (k, v) ∈ row → recognized k = true →
        ∃ sub, dictLookup out (splitHead k) = some (Val.vObj sub) ∧
          dictLookup sub (splitRest k) = some v) ∧
      (∀ k', k' ∈ recKeys out → k' ∈ recKeys row ∨ k' = "task" ∨ k' = "user") := by
  intro row hnd hok
  have inv0 : NormInv [] [] := by
    refine ⟨?_, ?_, ?_, ?_, ?_⟩
    · intro k v hm; simp at hm
    · intro k v hm; simp at hm
    · intro k' hk'; simp [recKeys] at hk'
    · intro h w _ hl; simp [dictLookup] at hl
    · intro k v hm; simp at hm
  obtain ⟨out, hf, inv⟩ := norm_fold row inv0 (by simpa using hnd) hok
  refine ⟨out, hf, ?_, ?_, ?_⟩
  · intro k v hm
    exact inv.flat k v (by simpa using hm)
  · intro k v hm hr
    exact inv.nested k v (by simpa using hm) hr
  · intro k' hk'
    rcases inv.keysub k' hk' with h | h
    · left; simpa using h
    · right; exact h

/-- Witness for C8, the spec's normalization example: the row
`{"task__title": "x", "other": 1}` keeps both flat keys, gains the nested
`task.title`, and introduces no other keys. -/
theorem process_filtered_row_witness :
    ∃ out, process_filtered_row [("task__title", Val.vStr "x"), ("other", Val.vInt 1)] =
        some out ∧
      (∀ k v, (k, v) ∈ [("task__title", Val.vStr "x"), ("other", Val.vInt 1)] →
        dictLookup out k = some v) ∧
      (∀ k v, (k, v) ∈ [("task__title", Val.vStr "x"), ("other", Val.vInt 1)] →
        recognized k = true →
        ∃ sub, dictLookup out (splitHead k) = some (Val.vObj sub) ∧
          dictLookup sub (splitRest k) = some v) ∧
      (∀ k', k' ∈ recKeys out →
        k' ∈ recKeys [("task__title", Val.vStr "x"), ("other", Val.vInt 1)] ∨
          k' = "task" ∨ k' = "user") :=
  process_filtered_row_amended [("task__title", Val.vStr "x"), ("other", Val.vInt 1)]
    (by decide) (by decide)

/-- Counterexample to C8 as stated: on the flat row
`{"task": 1, "task__x": 2}` — a legal Python dict — `process_filtered_row`
raises `TypeError` (`setdefault('task')` returns the scalar `1` and the
nested assignment subscripts it), so no normalized row mapping each key
as described exists. -/
theorem process_filtered_row_cex :
    process_filtered_row [("task", Val.vInt 1), ("task__x", Val.vInt 2)] = none := rfl

/-- Claim C9 (confirmed): when the user relation is present,
`merge_objects` stores under `"user"` exactly the user attributes from
the fixed allow-list, each with its original value; everything else
(e.g. a password) is dropped. -/
theorem merge_objects_user_allowlist : ∀ (t : DomainObj) (u : Rec), t.user = some u →
    dictLookup (merge_objects t) "user" =
      some (Val.vObj (u.filter (fun kv => allowed_attributes.contains kv.1))) ∧
    ∀ kv ∈ u.filter (fun kv => allowed_attributes.contains kv.1),
      kv.1 ∈ allowed_attributes ∧ kv ∈ u := by
  intro t u hu
  constructor
  · rcases htask : t.task with _ | task <;>
      simp [merge_objects, hu, htask, dictLookup_set_self]
  · intro kv hkv
    refine ⟨?_, List.mem_of_mem_filter hkv⟩
    have hp := List.of_mem_filter hkv
    simpa using hp

/-- Witness for C9, the spec's allow-list example: a user mapping
`{"name": "n", "password": "secret"}` yields exactly `{"name": "n"}`
under the `user` key. -/
theorem merge_objects_user_allowlist_witness :
    dictLookup (merge_objects ⟨"taskrun", some [], none,
      some [("name", Val.vStr "n"), ("password", Val.vStr "secret")]⟩) "user" =
      some (Val.vObj [("name", Val.vStr "n")]) :=
  (merge_objects_user_allowlist
    ⟨"taskrun", some [], none, some [("name", Val.vStr "n"), ("password", Val.vStr "secret")]⟩
    [("name", Val.vStr "n"), ("password", Val.vStr "secret")] rfl).1

/-- Claim C10 (corrected), the claim as amended: (existential part, as in
the claim) the row `{"info__foo": "v"}` is normalized to flat form only,
and projecting its header `task__info__foo` against the normalized row
yields null instead of `"v"`; (universal part) a flat key containing no
delimiter always projects back to its original value — **provided** the
key is not itself one of the recognized prefixes `task`/`user` (a later
`task__*` sibling mutates the dict stored under a bare `task` key, see
the counterexample), the row's keys are distinct, and the table prefix
is delimiter-clean and nonempty. -/
theorem flat_key_projection_amended :
    (process_filtered_row [("info__foo", Val.vStr "v")] = some [("info__foo", Val.vStr "v")] ∧
      get_value (Val.vObj [("info__foo", Val.vStr "v")])
        ((pySplitUnd (headerOf "task" ["info__foo"])).drop 1) = Val.vNull) ∧
    (∀ (tbl : String) (row out : Rec) (k : String) (v : Val),
      cleanKey tbl = true →
      process_filtered_row row = some out → (recKeys row).Nodup →
      (k, v) ∈ row → hasUnd k.data = false → k ≠ "task" → k ≠ "user" →
      get_value (Val.vObj out) ((pySplitUnd (tbl ++ "__" ++ k)).drop 1) = v) := by
  refine ⟨⟨rfl, rfl⟩, ?_⟩
  intro tbl row out k v hct hf hnd hm hk ht hu
  have hsp : pySplitUnd (tbl ++ "__" ++ k) = [tbl, k] := by
    rw [pySplitUnd_append_clean _ hct, pySplitUnd_no_delim hk]
  rw [hsp]
  have hlk : dictLookup out k = some v := fold_inserts row hf hnd hm ht hu
  show get_value (Val.vObj out) [k] = v
  rw [get_value_cons, hlk]
  exact get_value_nil v

/-- Witness for C10's universal part: a delimiter-free key projects back
to its value through normalization and header projection. -/
theorem flat_key_projection_witness :
    get_value (Val.vObj [("alpha", Val.vInt 7)])
      ((pySplitUnd ("task" ++ "__" ++ "alpha")).drop 1) = Val.vInt 7 :=
  flat_key_projection_amended.2 "task" [("alpha", Val.vInt 7)] [("alpha", Val.vInt 7)]
    "alpha" (Val.vInt 7) (by decide) rfl (by decide) (by simp) (by decide)
    (by decide) (by decide)

/-- Counterexample to C10's universal part as stated: in the row
`{"task": {"a": 1}, "task__y": 2}` the delimiter-free key `task` does
*not* project back to its original value `{"a": 1}` — processing
`task__y` mutates the dict stored under `task`, so projection returns
`{"a": 1, "y": 2}`. -/
theorem flat_key_projection_cex :
    process_filtered_row [("task", Val.vObj [("a", Val.vInt 1)]), ("task__y", Val.vInt 2)] =
      some [("task", Val.vObj [("a", Val.vInt 1), ("y", Val.vInt 2)]),
            ("task__y", Val.vInt 2)] ∧
    get_value
      (Val.vObj [("task", Val.vObj [("a", Val.vInt 1), ("y", Val.vInt 2)]),
                 ("task__y", Val.vInt 2)])
      ((pySplitUnd ("task" ++ "__" ++ "task")).drop 1) =
      Val.vObj [("a", Val.vInt 1), ("y", Val.vInt 2)] ∧
    Val.vObj [("a", Val.vInt 1), ("y", Val.vInt 2)] ≠ Val.vObj [("a", Val.vInt 1)] := by
  refine ⟨rfl, rfl, ?_⟩
  intro h
  injection h with h1
  simp at h1

end TaskCsvExport
